import Mathlib

/-!
# Verification of the azurekv secret-provider reconciliation core

Shallow embedding of the reconciliation core of the `terraform-provider-azurekv`
repository: the version-resolution loop (`GetSecretProperties`), the key-vault
resource lookup (`GetKeyVaultID`), the identity codec (`extractVaultName`,
`extractVaultNameAndName`), the record builder (`setSecretData`), the plan
reconciler (`ModifyPlan` / `markValueWillChange`), the update branching rule
(`Update`) and the import-identity resolution (`ImportState`).

Terraform framework attribute values (`types.String`, `types.Int32`, ...) are
modelled by `TValue`, a three-state value (null / unknown / known).  Azure
secret identifiers returned by the vault service are modelled by `AzID`, a
well-formed versioned secret URI `vaultURL/secrets/name/version`; `time.Time`
instants are modelled by integers with `After` as strict `>`.  Paginated
listings are modelled as a finite list of pages.
-/

/-- Terraform framework attribute value: null, unknown, or a known value.
Models `types.String` / `types.Int32` / `timetypes.RFC3339` / `types.Map`. -/
inductive TValue (α : Type) where
  | null : TValue α
  | unknown : TValue α
  | value : α → TValue α
deriving DecidableEq

/-- `ValueString`: the known value, or `""` for null/unknown. -/
def TValue.valueString : TValue String → String
  | .value s => s
  | _ => ""

/-- `ValueInt32`: the known value, or `0` for null/unknown. -/
def TValue.valueInt : TValue Int → Int
  | .value n => n
  | _ => 0

/-- `IsNull`. -/
def TValue.isNull : TValue α → Bool
  | .null => true
  | _ => false

/-- `IsUnknown`. -/
def TValue.isUnknown : TValue α → Bool
  | .unknown => true
  | _ => false

/-- A well-formed Azure Key Vault versioned secret identifier (`azsecrets.ID`),
as minted by the vault service: `{vaultURL}/secrets/{name}/{version}`.
`AzID.render` is the raw string `string(*id)`, and the `Name()` / `Version()`
accessors of the SDK are the `name` / `version` fields. -/
structure AzID where
  vaultURL : String
  name : String
  version : String
deriving DecidableEq

/-- `string(*id)`: the raw identifier string. -/
def AzID.render (i : AzID) : String :=
  i.vaultURL ++ "/secrets/" ++ i.name ++ "/" ++ i.version

/-- The slice of `azsecrets.SecretProperties` the resolution loop reads:
the secret identifier and `*Attributes.Created` (an instant, `After` = `>`). -/
structure SecretProperties where
  id : AzID
  created : Int
deriving DecidableEq

/-- One step of the `latestSecretProperties` tracking in
`GetSecretProperties`: keep the accumulator unless the next entry was
created strictly later (`secret.Attributes.Created.After(...)`). -/
def latestStep (latest : Option SecretProperties) (sp : SecretProperties) :
    Option SecretProperties :=
  match latest with
  | none => some sp
  | some l => if sp.created > l.created then some sp else some l

/-- Result of the page loops of `GetSecretProperties`: either an early
`return secret, nil` from inside the loop, or loop exhaustion with the
tracked latest entry. -/
inductive LoopResult where
  | early : SecretProperties → LoopResult
  | done : Option SecretProperties → LoopResult
deriving DecidableEq

/-- The inner `for _, secret := range page.Value` loop of
`GetSecretProperties` (client.go:71-78), including the early
`return secret, nil` when an explicit version is requested and the entry's
version differs from it. -/
def gspList (version : String) : List SecretProperties → Option SecretProperties → LoopResult
  | [], latest => .done latest
  | sp :: rest, latest =>
    if version ≠ "" ∧ version ≠ sp.id.version then .early sp
    else gspList version rest (latestStep latest sp)

/-- The outer `for pager.More()` loop of `GetSecretProperties`
(client.go:65-79), over the finite sequence of pages. -/
def gspPages (version : String) : List (List SecretProperties) → Option SecretProperties → LoopResult
  | [], latest => .done latest
  | page :: rest, latest =>
    match gspList version page latest with
    | .early sp => .early sp
    | .done latest2 => gspPages version rest latest2

/-- Error message of client.go:82. -/
def secretNotFoundMsg (name keyVaultID : String) : String :=
  "the secret \"" ++ name ++ "\" was not found in the key vault \"" ++ keyVaultID ++ "\""

/-- `client.GetSecretProperties` (client.go:57-86): iterate all pages of the
version listing; with a non-empty `version` argument the loop returns early
on the first entry whose version differs from it (the inverted check of
client.go:72); otherwise the entry with the latest `Created` instant is
tracked and returned, or a not-found error if no entry exists. -/
def GetSecretProperties (keyVaultID name version : String)
    (pages : List (List SecretProperties)) : Except String SecretProperties :=
  match gspPages version pages none with
  | .early sp => .ok sp
  | .done (some sp) => .ok sp
  | .done none => .error (secretNotFoundMsg name keyVaultID)

/-- Error message of client.go:112. -/
def vaultNotFoundMsg (vaultName : String) : String :=
  "the key vault \"" ++ vaultName ++ "\" not found; make sure that the key vault name is correct and that you have the \"Microsoft.KeyVault/vaults/read\" permission"

/-- `client.GetKeyVaultID` (client.go:97-113): the Resource Directory is
modelled as a function from a vault name to the (paginated, here flattened)
list of resource IDs matching the exact-name filter; the first match is
returned, and exhaustion yields the not-found error with the permission
hint. -/
def GetKeyVaultID (dir : String → List String) (vaultName : String) :
    Except String String :=
  match dir vaultName with
  | [] => .error (vaultNotFoundMsg vaultName)
  | id :: _ => .ok id

/-- Go `strings.TrimSuffix`: remove `sfx` from the end of `s` when it is a
suffix, otherwise return `s` unchanged (expressed on the character list). -/
def trimSuffix (s sfx : String) : String :=
  if sfx.data.isSuffixOf s.data then String.mk (s.data.take (s.data.length - sfx.data.length))
  else s

/-- The secret model record shared by the resource and the data source
(`SecretDataSourceModel` plus the resource-only `value_wo` /
`value_wo_version` fields), with Terraform three-state attribute values. -/
structure SecretModelData where
  name : TValue String
  keyVaultID : TValue String
  id : TValue String
  versionlessID : TValue String
  contentType : TValue String
  notBeforeDate : TValue Int
  expirationDate : TValue Int
  version : TValue String
  resourceID : TValue String
  resourceVersionlessID : TValue String
  tags : TValue (List (String × String))
  valueWO : TValue String
  valueWOVersion : TValue Int
deriving DecidableEq

/-- The slice of `azsecrets.SecretAttributes` read by the record builder:
the optional `NotBefore` / `Expires` instants. -/
structure SecretAttributes where
  notBefore : Option Int
  expires : Option Int
deriving DecidableEq

/-- `setSecretData` (part_003:34-64): overwrite the identifier fields from
the secret ID and the vault ID, and copy content type, validity window and
tags only when the corresponding input is present. -/
def setSecretData (s : SecretModelData) (id : AzID) (attrs : SecretAttributes)
    (contentType : Option String) (tags : Option (List (String × String))) :
    SecretModelData :=
  { s with
    id := TValue.value id.render
    versionlessID := TValue.value (trimSuffix id.render ("/" ++ id.version))
    version := TValue.value id.version
    resourceVersionlessID := TValue.value (s.keyVaultID.valueString ++ "/secrets/" ++ id.name)
    resourceID := TValue.value (s.keyVaultID.valueString ++ "/secrets/" ++ id.name ++ "/versions/" ++ id.version)
    contentType := match contentType with
      | some ct => TValue.value ct
      | none => s.contentType
    notBeforeDate := match attrs.notBefore with
      | some t => TValue.value t
      | none => s.notBeforeDate
    expirationDate := match attrs.expires with
      | some t => TValue.value t
      | none => s.expirationDate
    tags := match tags with
      | some m => TValue.value m
      | none => s.tags }

/-- Consume the literal `p` from the front of `cs` (a literal piece of a
regular expression), returning the remainder on success. -/
def dropPre : List Char → List Char → Option (List Char)
  | [], cs => some cs
  | _ :: _, [] => none
  | a :: p, c :: cs => if a = c then dropPre p cs else none

/-- Matcher for `keyVaultIDRegex` (part_003:18):
`\A/subscriptions/[^/]+/resourceGroups/[^/]+/providers/Microsoft.KeyVault/vaults/([^/]+)\z`,
returning the captured vault name.  The `.` of `Microsoft.KeyVault` is an
unescaped regular-expression dot and therefore matches any single
non-newline character.  Each `[^/]+` is a nonempty run of non-slash
characters; because every such run is followed by a literal `/` (or the end
anchor) the match is deterministic. -/
def kvNameCapture (s : String) : Option String :=
  match dropPre "/subscriptions/".data s.data with
  | none => none
  | some r1 =>
    let seg1 := r1.takeWhile (fun c => c ≠ '/')
    if seg1.isEmpty then none
    else
      match dropPre "/resourceGroups/".data (r1.dropWhile (fun c => c ≠ '/')) with
      | none => none
      | some r2 =>
        let seg2 := r2.takeWhile (fun c => c ≠ '/')
        if seg2.isEmpty then none
        else
          match dropPre "/providers/Microsoft".data (r2.dropWhile (fun c => c ≠ '/')) with
          | none => none
          | some r3 =>
            match r3 with
            | [] => none
            | c :: r4 =>
              if c = '\n' then none
              else
                match dropPre "KeyVault/vaults/".data r4 with
                | none => none
                | some r5 =>
                  if r5.isEmpty then none
                  else if r5.any (fun a => a = '/') then none
                  else some (String.mk r5)

/-- `extractVaultName` (part_003:66-73). -/
def extractVaultName (keyVaultID : String) : Except String String :=
  match kvNameCapture keyVaultID with
  | some vaultName => .ok vaultName
  | none => .error ("invalid key vault ID: \"" ++ keyVaultID ++ "\" doesn't match the key vault ID pattern")

/-- Matcher for the tail `\.vault.azure.net/secrets/` of `idRegex`
(part_003:17) at a fixed position: a literal `.vault`, one arbitrary
non-newline character (the unescaped dot), literal `azure`, one arbitrary
non-newline character, then literal `net/secrets/`.  Returns the remainder
after `/secrets/`. -/
def matchHostTail (cs : List Char) : Option (List Char) :=
  match dropPre ".vault".data cs with
  | none => none
  | some r1 =>
    match r1 with
    | [] => none
    | c1 :: r2 =>
      if c1 = '\n' then none
      else
        match dropPre "azure".data r2 with
        | none => none
        | some r3 =>
          match r3 with
          | [] => none
          | c2 :: r4 =>
            if c2 = '\n' then none
            else dropPre "net/secrets/".data r4

/-- Greedy search for the first capture of `idRegex`: try the capture
length `k` downwards (Go submatching prefers the longest `([^/]+)` for
which the rest of the expression still matches), and for each candidate
match the host tail and take the greedy second capture (a nonempty run of
non-slash characters; nothing of the input after it is examined). -/
def tryCapture (cs : List Char) : Nat → Option (List Char × List Char)
  | 0 => none
  | Nat.succ k =>
    match matchHostTail (cs.drop (Nat.succ k)) with
    | some rest =>
      let nm := rest.takeWhile (fun c => c ≠ '/')
      if nm.isEmpty then tryCapture cs k else some (cs.take (Nat.succ k), nm)
    | none => tryCapture cs k

/-- `extractVaultNameAndName` (part_003:75-82), matching `idRegex`
(part_003:17): `\Ahttps://([^/]+)\.vault.azure.net/secrets/([^/]+)`,
unanchored at the end.  The first capture cannot contain `/`, so its
candidate lengths are bounded by the leading run of non-slash characters
after `https://`. -/
def extractVaultNameAndName (id : String) : Except String (String × String) :=
  match dropPre "https://".data id.data with
  | none => .error ("invalid ID: \"" ++ id ++ "\" doesn't match the ID pattern")
  | some cs =>
    match tryCapture cs (cs.takeWhile (fun c => c ≠ '/')).length with
    | some (vault, nm) => .ok (String.mk vault, String.mk nm)
    | none => .error ("invalid ID: \"" ++ id ++ "\" doesn't match the ID pattern")

/-- The three planned attributes touched by the plan reconciler
(`resp.Plan`'s `id`, `resource_id` and `version`). -/
structure PlanTriple where
  id : TValue String
  resourceID : TValue String
  version : TValue String
deriving DecidableEq

/-- `markValueWillChange` (part_004:480-485): when the value changes, the
three dependent attributes are set to unknown on the plan. -/
def markValueWillChange (_plan : PlanTriple) : PlanTriple :=
  { id := TValue.unknown, resourceID := TValue.unknown, version := TValue.unknown }

/-- `SecretResource.ModifyPlan` (part_004:414-450), as a pure function on
(raw nullness of config/state, config model, state model, proposed plan
triple): destroy/create and absent write-only input leave the plan
untouched; an unknown write-only value or a changed `value_wo_version`
marks `id` / `resource_id` / `version` unknown; otherwise the three
attributes are pinned to their prior state values. -/
def ModifyPlan (configRawNull stateRawNull : Bool)
    (config state : SecretModelData) (plan : PlanTriple) : PlanTriple :=
  if configRawNull || stateRawNull then plan
  else if config.valueWO.isNull || config.valueWOVersion.isNull then plan
  else if config.valueWO.isUnknown then markValueWillChange plan
  else if config.valueWOVersion ≠ state.valueWOVersion then markValueWillChange plan
  else
    { id := TValue.value state.id.valueString,
      resourceID := TValue.value state.resourceID.valueString,
      version := TValue.value state.version.valueString }

/-- The vault operation invoked by `Update`: either `SetSecret` (mints a new
version) or `UpdateSecretProperties` against an existing version. -/
inductive VaultCall where
  | setSecretCall : VaultCall
  | updatePropsCall : String → VaultCall
deriving DecidableEq

/-- The slice of a vault-service response read back by `setSecretData`:
the minted/echoed secret ID, attributes, content type and tags. -/
structure SecretResponse where
  id : AzID
  attrs : SecretAttributes
  contentType : Option String
  tags : Option (List (String × String))
deriving DecidableEq

/-- `SecretResource.Update` (part_004:261-327): compare the rotation counter
stored in prior state (`req.State`'s `value_wo_version`) with the planned
model's counter; on difference call `SetSecret` (response `setResp`), else
call `UpdateSecretProperties` against the model's `version` field (response
`updateResp`); either way rebuild the record from the response. -/
def Update (stateValueWOVersion : Int) (model : SecretModelData)
    (setResp updateResp : SecretResponse) : VaultCall × SecretModelData :=
  if stateValueWOVersion ≠ model.valueWOVersion.valueInt then
    (VaultCall.setSecretCall,
     setSecretData model setResp.id setResp.attrs setResp.contentType setResp.tags)
  else
    (VaultCall.updatePropsCall model.version.valueString,
     setSecretData model updateResp.id updateResp.attrs updateResp.contentType updateResp.tags)

/-- The state attributes written by `ImportState` (`none` = never set). -/
structure ImportedState where
  id : Option String
  name : Option String
  keyVaultID : Option String
  valueWOVersion : Option Int
deriving DecidableEq

/-- The empty imported state. -/
def emptyImportedState : ImportedState :=
  { id := none, name := none, keyVaultID := none, valueWOVersion := none }

/-- `SecretResource.ImportState` (part_004:348-412).  Structured-identity
mode resolves the latest version through `GetSecretProperties` (over the
modelled page listing for the identity's vault/name).  Legacy string-ID
mode first passes the request ID through to `id`, requires a configured
subscription, parses the ID with `extractVaultNameAndName`, and resolves
the vault resource ID through `GetKeyVaultID` (a lookup failure adds the
diagnostic but still writes `key_vault_id` — the Go code does not return
there — with the zero-value `""`).  Both modes end by setting
`key_vault_id` and pinning `value_wo_version` to `1`.  Diagnostics are
(summary, detail) pairs; a successful import has no diagnostics. -/
def ImportState (identityPresent : Bool) (identityName identityKeyVaultID : String)
    (pages : List (List SecretProperties)) (subscriptionID reqID : String)
    (dir : String → List String) : ImportedState × List (String × String) :=
  if identityPresent then
    match GetSecretProperties identityKeyVaultID identityName "" pages with
    | .error e => (emptyImportedState, [("Failed to Get Secret Properties", e)])
    | .ok sp =>
      ({ emptyImportedState with
          id := some sp.id.render
          name := some identityName
          keyVaultID := some identityKeyVaultID
          valueWOVersion := some 1 }, [])
  else
    let st0 := { emptyImportedState with id := some reqID }
    if subscriptionID = "" then
      (st0, [("Missing Configuration", "Subscription ID is required to import a secret")])
    else
      match extractVaultNameAndName reqID with
      | .error e => (st0, [("Invalid ID", e)])
      | .ok (vaultName, nm) =>
        match GetKeyVaultID dir vaultName with
        | .error e =>
          ({ st0 with name := some nm, keyVaultID := some "", valueWOVersion := some 1 },
           [("Failed to Get KeyVaults", e)])
        | .ok kvID =>
          ({ st0 with name := some nm, keyVaultID := some kvID, valueWOVersion := some 1 }, [])

/-- Specification predicate for the omitted-version lookup: `sp` is the
first entry of `l` carrying the maximum `Created` instant — everything
before it is strictly older, everything after it is no newer (strict
"after" comparison keeps the first entry seen on ties). -/
def isFirstMax (l : List SecretProperties) (sp : SecretProperties) : Prop :=
  ∃ l1 l2, l = l1 ++ sp :: l2 ∧ (∀ t ∈ l1, t.created < sp.created) ∧
    (∀ t ∈ l2, t.created ≤ sp.created)

/-- A string usable as one `[^/]+` segment: nonempty and slash-free. -/
def segOKb (s : String) : Bool :=
  !s.data.isEmpty && s.data.all (fun c => c ≠ '/')

/-- Build a vault resource identifier from its segments, with an arbitrary
character `c` at the position of the (unescaped) dot of
`Microsoft.KeyVault` in `keyVaultIDRegex`. -/
def vaultIDOfParts (s g : String) (c : Char) (n : String) : String :=
  "/subscriptions/" ++ s ++ "/resourceGroups/" ++ g ++ "/providers/Microsoft" ++
    String.mk [c] ++ "KeyVault/vaults/" ++ n

/-- The structural vault-ID pattern exactly as the specification words it:
`/subscriptions/{s}/resourceGroups/{g}/providers/Microsoft.KeyVault/vaults/{name}`
with a literal dot in the provider segment and nonempty slash-free
segments. -/
def literalVaultShape (x : String) : Prop :=
  ∃ s g n, segOKb s = true ∧ segOKb g = true ∧ segOKb n = true ∧
    x = vaultIDOfParts s g '.' n

/-- Build a legacy secret URI prefix from its parts, with arbitrary
characters `c1` / `c2` at the positions of the two unescaped dots of
`idRegex` (`\.vault.azure.net`), followed by arbitrary trailing text. -/
def legacyIDOfParts (v : String) (c1 c2 : Char) (n rest : String) : String :=
  "https://" ++ v ++ ".vault" ++ String.mk [c1] ++ "azure" ++ String.mk [c2] ++
    "net/secrets/" ++ n ++ rest

/-- The structural legacy-ID pattern exactly as the claim words it: the
input begins with `https://{vault}.vault.azure.net/secrets/{name}` with
literal dots. -/
def literalLegacyShape (x : String) : Prop :=
  ∃ v n rest, segOKb v = true ∧ segOKb n = true ∧
    x = "https://" ++ v ++ ".vault.azure.net/secrets/" ++ n ++ rest

/-- A secret-version entry whose version is `"v1"`. -/
def spV1 : SecretProperties :=
  { id := { vaultURL := "https://kv.vault.azure.net", name := "s1", version := "v1" },
    created := 10 }

/-- A secret-version entry whose version is `"v2"`, created later. -/
def spV2 : SecretProperties :=
  { id := { vaultURL := "https://kv.vault.azure.net", name := "s1", version := "v2" },
    created := 20 }

/-- The legacy import ID used by the specification's import scenario. -/
def c7BadID : String := "https://myvault.example/secrets/s1/abcd"

/-- The same import scenario with a host of the shape the codec accepts. -/
def c7GoodID : String := "https://myvault.vault.azure.net/secrets/s1/abcd"

/-- A vault resource ID matching `keyVaultIDRegex` only because the dot of
`Microsoft.KeyVault` is unescaped (it holds `X` here). -/
def c6Bad : String := "/subscriptions/a/resourceGroups/b/providers/MicrosoftXKeyVault/vaults/n"

/-- A legacy ID matching `idRegex` only because the two inner dots of
`vault.azure.net` are unescaped (they hold `x` / `y` here). -/
def c10Bad : String := "https://v.vaultxazureynet/secrets/n"

/-- An all-null secret model record, base for concrete instances. -/
def nullModel : SecretModelData :=
  { name := TValue.null, keyVaultID := TValue.null, id := TValue.null,
    versionlessID := TValue.null, contentType := TValue.null,
    notBeforeDate := TValue.null, expirationDate := TValue.null,
    version := TValue.null, resourceID := TValue.null,
    resourceVersionlessID := TValue.null, tags := TValue.null,
    valueWO := TValue.null, valueWOVersion := TValue.null }

/-- A concrete prior-state model for witnesses. -/
def stateEx : SecretModelData :=
  { nullModel with
    name := TValue.value "s1",
    keyVaultID := TValue.value "/subscriptions/s/resourceGroups/g/providers/Microsoft.KeyVault/vaults/kv",
    id := TValue.value "https://kv.vault.azure.net/secrets/s1/v1",
    version := TValue.value "v1",
    resourceID := TValue.value "/subscriptions/s/resourceGroups/g/providers/Microsoft.KeyVault/vaults/kv/secrets/s1/versions/v1",
    valueWO := TValue.value "w",
    valueWOVersion := TValue.value 1 }

/-- A concrete vault response minting version `"v2"`, for witnesses. -/
def respV2 : SecretResponse :=
  { id := { vaultURL := "https://kv.vault.azure.net", name := "s1", version := "v2" },
    attrs := { notBefore := none, expires := none },
    contentType := some "", tags := some [] }

/-- A concrete vault response echoing version `"v1"`, for witnesses. -/
def respV1 : SecretResponse :=
  { id := { vaultURL := "https://kv.vault.azure.net", name := "s1", version := "v1" },
    attrs := { notBefore := none, expires := none },
    contentType := some "", tags := some [] }

/-- The `latestSecretProperties` tracking step once the accumulator is
known to be non-nil. -/
def latestStep2 (a sp : SecretProperties) : SecretProperties :=
  if sp.created > a.created then sp else a

instance exceptDecEq {ε α : Type} [DecidableEq ε] [DecidableEq α] :
    DecidableEq (Except ε α) := fun a b =>
  match a, b with
  | .ok x, .ok y =>
    if h : x = y then isTrue (by rw [h]) else isFalse (fun he => h (Except.ok.inj he))
  | .error x, .error y =>
    if h : x = y then isTrue (by rw [h]) else isFalse (fun he => h (Except.error.inj he))
  | .ok _, .error _ => isFalse (fun he => Except.noConfusion he)
  | .error _, .ok _ => isFalse (fun he => Except.noConfusion he)

/-- With no explicit version the inner loop never returns early and just
folds the latest-tracking step over the page. -/
theorem gspList_no_version (l : List SecretProperties) :
    ∀ latest, gspList "" l latest = .done (l.foldl latestStep latest) := by
  induction l with
  | nil => intro latest; rfl
  | cons sp rest ih =>
    intro latest
    simp only [gspList, ne_eq, not_true_eq_false, false_and, if_false, List.foldl_cons]
    exact ih (latestStep latest sp)

/-- With no explicit version the page loop folds the latest-tracking step
over the concatenation of all pages. -/
theorem gspPages_no_version (pages : List (List SecretProperties)) :
    ∀ latest, gspPages "" pages latest = .done (pages.flatten.foldl latestStep latest) := by
  induction pages with
  | nil => intro latest; rfl
  | cons page rest ih =>
    intro latest
    simp only [gspPages, gspList_no_version, List.flatten_cons, List.foldl_append]
    exact ih (page.foldl latestStep latest)

/-- Folding from a non-nil accumulator never returns to nil. -/
theorem foldl_latestStep_some (l : List SecretProperties) :
    ∀ a, l.foldl latestStep (some a) = some (l.foldl latestStep2 a) := by
  induction l with
  | nil => intro a; rfl
  | cons sp rest ih =>
    intro a
    have hstep : latestStep (some a) sp = some (latestStep2 a sp) := by
      simp only [latestStep, latestStep2]
      split <;> rfl
    simp only [List.foldl_cons, hstep]
    exact ih (latestStep2 a sp)

/-- The first maximum of a list dominates its head. -/
theorem firstMax_head_le {s r : SecretProperties} {rest : List SecretProperties}
    (h : isFirstMax (s :: rest) r) : s.created ≤ r.created := by
  obtain ⟨l1, l2, heq, h1, _⟩ := h
  cases l1 with
  | nil =>
    simp only [List.nil_append] at heq
    exact le_of_eq (congrArg SecretProperties.created (List.cons.inj heq).1)
  | cons b t =>
    simp only [List.cons_append] at heq
    have hb : s ∈ b :: t := by
      rw [(List.cons.inj heq).1]
      exact List.mem_cons_self b t
    exact le_of_lt (h1 s hb)

/-- Folding the strict-comparison tracking step returns the first entry
carrying the maximum `created` instant. -/
theorem foldl_latestStep2_isFirstMax (l : List SecretProperties) :
    ∀ a, isFirstMax (a :: l) (l.foldl latestStep2 a) := by
  induction l with
  | nil =>
    intro a
    exact ⟨[], [], rfl, by simp, by simp⟩
  | cons s rest ih =>
    intro a
    rw [List.foldl_cons]
    by_cases hgt : s.created > a.created
    · rw [show latestStep2 a s = s from if_pos hgt]
      obtain ⟨l1, l2, heq, h1, h2⟩ := ih s
      refine ⟨a :: l1, l2, ?_, ?_, h2⟩
      · rw [List.cons_append, ← heq]
      · intro t ht
        rcases List.mem_cons.mp ht with rfl | htl
        · exact lt_of_lt_of_le hgt (firstMax_head_le (ih s))
        · exact h1 t htl
    · rw [show latestStep2 a s = a from if_neg hgt]
      have hsa : s.created ≤ a.created := le_of_not_lt hgt
      obtain ⟨l1, l2, heq, h1, h2⟩ := ih a
      cases l1 with
      | nil =>
        rw [List.nil_append] at heq
        obtain ⟨har, hrest⟩ := List.cons.inj heq
        refine ⟨[], s :: l2, ?_, by simp, ?_⟩
        · rw [List.nil_append, ← har, hrest]
        · intro t ht
          rcases List.mem_cons.mp ht with rfl | htl
          · exact le_trans hsa (le_of_eq (congrArg SecretProperties.created har))
          · exact h2 t htl
      | cons b t =>
        rw [List.cons_append] at heq
        obtain ⟨hab, hrest⟩ := List.cons.inj heq
        have hamem : a ∈ b :: t := by
          rw [hab]; exact List.mem_cons_self b t
        have haR : a.created < (rest.foldl latestStep2 a).created := h1 a hamem
        refine ⟨a :: s :: t, l2, ?_, ?_, h2⟩
        · rw [List.cons_append, List.cons_append, ← hrest]
        · intro u hu
          rcases List.mem_cons.mp hu with rfl | hu2
          · exact haR
          · rcases List.mem_cons.mp hu2 with rfl | hu3
            · exact lt_of_le_of_lt hsa haR
            · exact h1 u (List.mem_cons_of_mem b hu3)

/-- C1: The explicit-version branch of `GetSecretProperties` is inverted in
the code (client.go:72 returns an entry when its version *differs* from the
requested one).  At the concrete input below, the listing contains an entry
whose version equals the requested `"v1"` exactly, yet the function returns
the other entry, whose version is `"v2"` — the claim that entries with a
non-matching version are skipped and never returned is violated by the
code. -/
theorem c1_explicit_version_inverted :
    GetSecretProperties "kv" "s1" "v1" [[spV1, spV2]] = .ok spV2 ∧
    spV2.id.version ≠ "v1" ∧ spV1.id.version = "v1" ∧
    spV1 ∈ [[spV1, spV2]].flatten := by
  refine ⟨?_, by decide, rfl, by decide⟩
  rfl

/-- C4: For every omitted-version lookup over any finite sequence of pages
with at least one entry, `GetSecretProperties` returns the entry carrying
the maximum `Created` instant across all pages, with strict "after"
comparison so that ties keep the first entry seen (`isFirstMax`). -/
theorem c4_latest_created (keyVaultID name : String)
    (pages : List (List SecretProperties)) (h : pages.flatten ≠ []) :
    ∃ sp, GetSecretProperties keyVaultID name "" pages = .ok sp ∧
      isFirstMax pages.flatten sp := by
  cases hj : pages.flatten with
  | nil => exact absurd hj h
  | cons a l =>
    refine ⟨l.foldl latestStep2 a, ?_, ?_⟩
    · unfold GetSecretProperties
      rw [gspPages_no_version, hj, List.foldl_cons]
      rw [show latestStep none a = some a from rfl, foldl_latestStep_some]
    · exact foldl_latestStep2_isFirstMax l a

/-- Witness for C4 at a concrete two-page listing. -/
theorem c4_witness :
    ([[spV1], [spV2]] : List (List SecretProperties)).flatten ≠ [] ∧
    ∃ sp, GetSecretProperties "kv" "s1" "" [[spV1], [spV2]] = .ok sp ∧
      isFirstMax ([[spV1], [spV2]] : List (List SecretProperties)).flatten sp :=
  ⟨by decide, c4_latest_created "kv" "s1" [[spV1], [spV2]] (by decide)⟩

/-- C2: In a plan reconciliation where prior state and proposed
configuration both exist (raw documents non-null) and the write-only value
and rotation counter are present and resolvable (known values), an
unchanged rotation counter pins `id` / `resource_id` / `version` to their
prior state values (never unknown), and a changed counter marks exactly
those three attributes unknown. -/
theorem c2_plan_pins_or_unknowns (config state : SecretModelData)
    (plan : PlanTriple) (w : String) (k j : Int)
    (hw : config.valueWO = TValue.value w)
    (hk : config.valueWOVersion = TValue.value k)
    (hj : state.valueWOVersion = TValue.value j) :
    (j = k → ModifyPlan false false config state plan =
      { id := TValue.value state.id.valueString,
        resourceID := TValue.value state.resourceID.valueString,
        version := TValue.value state.version.valueString }) ∧
    (j ≠ k → ModifyPlan false false config state plan =
      { id := TValue.unknown, resourceID := TValue.unknown,
        version := TValue.unknown }) := by
  unfold ModifyPlan
  rw [hw, hk, hj]
  constructor
  · intro hjk
    subst hjk
    simp [TValue.isNull, TValue.isUnknown]
  · intro hjk
    have hne : TValue.value k ≠ TValue.value j := fun he =>
      hjk ((TValue.value.inj he).symm)
    simp [TValue.isNull, TValue.isUnknown, hne, markValueWillChange]

/-- Witness for C2: pinned when the counter is unchanged, unknown when it
changes, at a concrete state/config pair. -/
theorem c2_witness :
    (ModifyPlan false false stateEx stateEx
        { id := TValue.unknown, resourceID := TValue.unknown, version := TValue.unknown } =
      { id := TValue.value stateEx.id.valueString,
        resourceID := TValue.value stateEx.resourceID.valueString,
        version := TValue.value stateEx.version.valueString }) ∧
    (ModifyPlan false false { stateEx with valueWOVersion := TValue.value 2 } stateEx
        { id := TValue.unknown, resourceID := TValue.unknown, version := TValue.unknown } =
      { id := TValue.unknown, resourceID := TValue.unknown, version := TValue.unknown }) :=
  ⟨(c2_plan_pins_or_unknowns stateEx stateEx _ "w" 1 1 rfl rfl rfl).1 rfl,
   (c2_plan_pins_or_unknowns { stateEx with valueWOVersion := TValue.value 2 } stateEx _
      "w" 2 1 rfl rfl rfl).2 (by decide)⟩

/-- C3: `Update` with a rotation counter differing from the one recorded in
prior state calls the vault `SetSecret` operation, and — since the vault
mints the version of the response — the resulting `version` differs from
the prior one whenever the minted version is fresh.  With an unchanged
counter it calls only `UpdateSecretProperties` against the existing
version held in the model's `version` field (pinned to prior state by the
plan reconciler), and when the service echoes that version and identifier
back, `version` and the versioned `id` are unchanged. -/
theorem c3_update_branching (sv : Int) (m : SecretModelData)
    (setResp updateResp : SecretResponse) (pv : String)
    (hpin : m.version = TValue.value pv) :
    (sv ≠ m.valueWOVersion.valueInt →
      (Update sv m setResp updateResp).1 = VaultCall.setSecretCall ∧
      (setResp.id.version ≠ pv →
        (Update sv m setResp updateResp).2.version ≠ TValue.value pv)) ∧
    (sv = m.valueWOVersion.valueInt →
      (Update sv m setResp updateResp).1 = VaultCall.updatePropsCall pv ∧
      (updateResp.id.version = pv →
        (Update sv m setResp updateResp).2.version = TValue.value pv) ∧
      (updateResp.id.render = m.id.valueString →
        (Update sv m setResp updateResp).2.id = TValue.value m.id.valueString)) := by
  constructor
  · intro hne
    rw [Update, if_pos hne]
    refine ⟨rfl, fun hv => ?_⟩
    simp only [setSecretData]
    exact fun he => hv (TValue.value.inj he)
  · intro heq
    rw [Update, if_neg (fun hne => hne heq)]
    refine ⟨?_, fun hv => ?_, fun hid => ?_⟩
    · rw [hpin]
      rfl
    · simp only [setSecretData, hv]
    · simp only [setSecretData, hid]

/-- Witness for C3: a changed counter takes the set-secret path with a new
version, an unchanged counter takes the update-properties path against the
prior version. -/
theorem c3_witness :
    ((Update 2 stateEx respV2 respV1).1 = VaultCall.setSecretCall ∧
      (Update 2 stateEx respV2 respV1).2.version ≠ TValue.value "v1") ∧
    ((Update 1 stateEx respV2 respV1).1 = VaultCall.updatePropsCall "v1" ∧
      (Update 1 stateEx respV2 respV1).2.version = TValue.value "v1") := by
  have hch := c3_update_branching 2 stateEx respV2 respV1 "v1" rfl
  have hun := c3_update_branching 1 stateEx respV2 respV1 "v1" rfl
  have h1 := hch.1 (by decide)
  have h2 := hun.2 (by decide)
  exact ⟨⟨h1.1, h1.2 (by decide)⟩, ⟨h2.1, h2.2.1 (by decide)⟩⟩

/-- C8: Every import that produces no diagnostics — in either entry mode —
pins the rotation counter `value_wo_version` of the freshly imported state
to exactly `1`. -/
theorem c8_import_counter_one (identityPresent : Bool) (idName idKV : String)
    (pages : List (List SecretProperties)) (sub reqID : String)
    (dir : String → List String)
    (h : (ImportState identityPresent idName idKV pages sub reqID dir).2 = []) :
    (ImportState identityPresent idName idKV pages sub reqID dir).1.valueWOVersion = some 1 := by
  cases identityPresent with
  | true =>
    simp only [ImportState, if_true] at h ⊢
    cases hg : GetSecretProperties idKV idName "" pages with
    | error e =>
      rw [hg] at h
      exact absurd h (List.cons_ne_nil _ _)
    | ok sp => rfl
  | false =>
    simp only [ImportState, Bool.false_eq_true, if_false] at h ⊢
    by_cases hs : sub = ""
    · rw [if_pos hs] at h
      exact absurd h (List.cons_ne_nil _ _)
    · rw [if_neg hs] at h ⊢
      cases he : extractVaultNameAndName reqID with
      | error e =>
        rw [he] at h
        exact absurd h (List.cons_ne_nil _ _)
      | ok p =>
        obtain ⟨vn, nm⟩ := p
        dsimp only
        cases GetKeyVaultID dir vn with
        | error e => rfl
        | ok kvID => rfl

/-- Witness for C8: a diagnostic-free structured-identity import. -/
theorem c8_witness :
    (ImportState true "s1" "kvid" [[spV1]] "" "" (fun _ => [])).1.valueWOVersion = some 1 :=
  c8_import_counter_one true "s1" "kvid" [[spV1]] "" "" (fun _ => []) (by decide)

/-- `strings.TrimSuffix` removes an appended suffix exactly. -/
theorem trimSuffix_append (a b : String) : trimSuffix (a ++ b) b = a := by
  unfold trimSuffix
  rw [if_pos]
  · rw [String.data_append, List.length_append, Nat.add_sub_cancel, List.take_left]
  · rw [String.data_append]
    exact List.isSuffixOf_iff_suffix.mpr (List.suffix_append a.data b.data)

/-- C5: After every call to the record builder, the derived identifiers
satisfy `id = versionless_id ++ "/" ++ version`,
`resource_versionless_id = keyVaultID ++ "/secrets/" ++ name` and
`resource_id = resource_versionless_id ++ "/versions/" ++ version`. -/
theorem c5_identifier_invariants (s : SecretModelData) (id : AzID)
    (attrs : SecretAttributes) (ct : Option String)
    (tg : Option (List (String × String))) :
    (setSecretData s id attrs ct tg).id.valueString =
      (setSecretData s id attrs ct tg).versionlessID.valueString ++ "/" ++
        (setSecretData s id attrs ct tg).version.valueString ∧
    (setSecretData s id attrs ct tg).resourceVersionlessID.valueString =
      s.keyVaultID.valueString ++ "/secrets/" ++ id.name ∧
    (setSecretData s id attrs ct tg).resourceID.valueString =
      (setSecretData s id attrs ct tg).resourceVersionlessID.valueString ++
        "/versions/" ++ (setSecretData s id attrs ct tg).version.valueString := by
  refine ⟨?_, rfl, rfl⟩
  show id.render = trimSuffix id.render ("/" ++ id.version) ++ "/" ++ id.version
  have h : id.render = (id.vaultURL ++ "/secrets/" ++ id.name) ++ ("/" ++ id.version) :=
    String.append_assoc (id.vaultURL ++ "/secrets/" ++ id.name) "/" id.version
  rw [h, trimSuffix_append, ← String.append_assoc]

/-- C9: `setSecretData` never clears previously held values from absent
inputs — a nil content type, nil `NotBefore` / `Expires` instants or a nil
tag map leave the corresponding model fields unchanged — while the five
identifier fields are always overwritten with freshly computed values. -/
theorem c9_frame_conditions (s : SecretModelData) (id : AzID)
    (attrs : SecretAttributes) (ct : Option String)
    (tg : Option (List (String × String))) :
    (ct = none → (setSecretData s id attrs ct tg).contentType = s.contentType) ∧
    (attrs.notBefore = none →
      (setSecretData s id attrs ct tg).notBeforeDate = s.notBeforeDate) ∧
    (attrs.expires = none →
      (setSecretData s id attrs ct tg).expirationDate = s.expirationDate) ∧
    (tg = none → (setSecretData s id attrs ct tg).tags = s.tags) ∧
    (setSecretData s id attrs ct tg).id = TValue.value id.render ∧
    (setSecretData s id attrs ct tg).versionlessID =
      TValue.value (trimSuffix id.render ("/" ++ id.version)) ∧
    (setSecretData s id attrs ct tg).version = TValue.value id.version ∧
    (setSecretData s id attrs ct tg).resourceVersionlessID =
      TValue.value (s.keyVaultID.valueString ++ "/secrets/" ++ id.name) ∧
    (setSecretData s id attrs ct tg).resourceID =
      TValue.value (s.keyVaultID.valueString ++ "/secrets/" ++ id.name ++
        "/versions/" ++ id.version) := by
  obtain ⟨nb, ex⟩ := attrs
  refine ⟨fun h => ?_, fun h => ?_, fun h => ?_, fun h => ?_, rfl, rfl, rfl, rfl, rfl⟩
  · subst h; rfl
  · cases nb with
    | none => rfl
    | some t => exact Option.noConfusion h
  · cases ex with
    | none => rfl
    | some t => exact Option.noConfusion h
  · subst h; rfl

/-- Witness for C9: at a concrete record and all-absent optional inputs,
the optional fields keep their prior values and the identifiers are
rebuilt. -/
theorem c9_witness :
    (setSecretData stateEx respV2.id ⟨none, none⟩ none none).contentType = stateEx.contentType ∧
    (setSecretData stateEx respV2.id ⟨none, none⟩ none none).notBeforeDate = stateEx.notBeforeDate ∧
    (setSecretData stateEx respV2.id ⟨none, none⟩ none none).expirationDate = stateEx.expirationDate ∧
    (setSecretData stateEx respV2.id ⟨none, none⟩ none none).tags = stateEx.tags ∧
    (setSecretData stateEx respV2.id ⟨none, none⟩ none none).version = TValue.value respV2.id.version := by
  have h := c9_frame_conditions stateEx respV2.id ⟨none, none⟩ none none
  exact ⟨h.1 rfl, h.2.1 rfl, h.2.2.1 rfl, h.2.2.2.1 rfl, h.2.2.2.2.2.2.1⟩

set_option maxRecDepth 8000 in
/-- C7 counterexample: at the claim's exact legacy ID
`https://myvault.example/secrets/s1/abcd`, with a subscription configured
and the vault absent from the Resource Directory, the import fails with the
`Invalid ID` diagnostic from the identity codec — `idRegex` requires a
`.vault<c>azure<c>net` host — and no diagnostic carries the
`Microsoft.KeyVault/vaults/read` permission hint, contradicting the
claimed `NotFound`-with-hint failure. -/
theorem c7_counterexample :
    ImportState false "" "" [] "sub" c7BadID (fun _ => []) =
      ({ emptyImportedState with id := some c7BadID },
       [("Invalid ID", "invalid ID: \"" ++ c7BadID ++ "\" doesn't match the ID pattern")]) ∧
    (∀ d ∈ (ImportState false "" "" [] "sub" c7BadID (fun _ => [])).2,
      ¬ List.IsInfix "Microsoft.KeyVault/vaults/read".data d.2.data) := by
  constructor
  · decide
  · decide

set_option maxRecDepth 8000 in
/-- C7 amended: the import scenario of the claim behaves as claimed once
the legacy ID carries the host shape the codec accepts
(`https://myvault.vault.azure.net/secrets/s1/abcd`): with a subscription
configured and the vault absent from the Resource Directory, the import
fails with the `Failed to Get KeyVaults` (not-found) diagnostic whose
message names the missing `Microsoft.KeyVault/vaults/read` permission. -/
theorem c7_amended_notfound_hint :
    ImportState false "" "" [] "sub" c7GoodID (fun _ => []) =
      ({ id := some c7GoodID, name := some "s1", keyVaultID := some "",
         valueWOVersion := some 1 },
       [("Failed to Get KeyVaults", vaultNotFoundMsg "myvault")]) ∧
    List.IsInfix "Microsoft.KeyVault/vaults/read".data (vaultNotFoundMsg "myvault").data := by
  constructor
  · decide
  · decide

/-- `dropPre` consumes exactly an appended literal. -/
theorem dropPre_complete : ∀ (p r : List Char), dropPre p (p ++ r) = some r
  | [], _ => rfl
  | a :: p, r => by
    simp only [List.cons_append, dropPre, if_pos rfl]
    exact dropPre_complete p r

/-- A successful `dropPre` decomposes the input. -/
theorem dropPre_sound : ∀ (p cs r : List Char), dropPre p cs = some r → cs = p ++ r
  | [], cs, r, h => by
    simp only [dropPre] at h
    rw [List.nil_append, Option.some.inj h]
  | a :: p, [], r, h => by simp [dropPre] at h
  | a :: p, c :: cs, r, h => by
    simp only [dropPre] at h
    by_cases hac : a = c
    · rw [if_pos hac] at h
      rw [List.cons_append, ← hac, dropPre_sound p cs r h]
    · rw [if_neg hac] at h
      exact Option.noConfusion h

/-- `takeWhile (· ≠ '/')` collects a slash-free run up to a slash. -/
theorem takeWhile_seg : ∀ (u w : List Char), (∀ a ∈ u, a ≠ '/') →
    w.head? = some '/' → (u ++ w).takeWhile (fun c => c ≠ '/') = u
  | [], w, _, hw => by
    cases w with
    | nil => exact Option.noConfusion hw
    | cons b t =>
      have hb : b = '/' := Option.some.inj hw
      rw [List.nil_append, hb]
      exact List.takeWhile_cons_of_neg (by simp)
  | a :: u, w, hu, hw => by
    have ha : (fun c => decide (c ≠ '/')) a = true :=
      decide_eq_true (hu a (List.mem_cons_self a u))
    rw [List.cons_append, List.takeWhile_cons, if_pos ha,
      takeWhile_seg u w (fun b hb => hu b (List.mem_cons_of_mem a hb)) hw]

/-- `dropWhile (· ≠ '/')` drops a slash-free run up to a slash. -/
theorem dropWhile_seg : ∀ (u w : List Char), (∀ a ∈ u, a ≠ '/') →
    w.head? = some '/' → (u ++ w).dropWhile (fun c => c ≠ '/') = w
  | [], w, _, hw => by
    cases w with
    | nil => exact Option.noConfusion hw
    | cons b t =>
      have hb : b = '/' := Option.some.inj hw
      rw [List.nil_append, hb]
      exact List.dropWhile_cons_of_neg (by simp)
  | a :: u, w, hu, hw => by
    have ha : (fun c => decide (c ≠ '/')) a = true :=
      decide_eq_true (hu a (List.mem_cons_self a u))
    rw [List.cons_append, List.dropWhile_cons, if_pos ha,
      dropWhile_seg u w (fun b hb => hu b (List.mem_cons_of_mem a hb)) hw]

/-- Nonempty lists are not `isEmpty`. -/
theorem isEmpty_false_of_ne_nil {α : Type} {l : List α} (h : l ≠ []) :
    l.isEmpty = false := by
  cases l with
  | nil => exact absurd rfl h
  | cons a t => rfl

/-- A slash-free list fails the slash search. -/
theorem any_slash_false : ∀ (l : List Char), (∀ a ∈ l, a ≠ '/') →
    l.any (fun a => a = '/') = false
  | [], _ => rfl
  | a :: l, h => by
    simp only [List.any_cons, Bool.or_eq_false_iff]
    refine ⟨decide_eq_false (h a (List.mem_cons_self a l)), ?_⟩
    exact any_slash_false l (fun b hb => h b (List.mem_cons_of_mem a hb))

/-- Unpack `segOKb`. -/
theorem segOKb_spec {s : String} (h : segOKb s = true) :
    s.data ≠ [] ∧ ∀ a ∈ s.data, a ≠ '/' := by
  unfold segOKb at h
  rw [Bool.and_eq_true] at h
  obtain ⟨h1, h2⟩ := h
  refine ⟨?_, ?_⟩
  · intro he
    rw [he] at h1
    exact absurd h1 (by decide)
  · intro a ha
    exact of_decide_eq_true (List.all_eq_true.mp h2 a ha)

/-- Pack `segOKb`. -/
theorem segOKb_of {l : List Char} (h1 : l ≠ []) (h2 : ∀ a ∈ l, a ≠ '/') :
    segOKb (String.mk l) = true := by
  unfold segOKb
  rw [Bool.and_eq_true]
  exact ⟨by rw [isEmpty_false_of_ne_nil h1]; rfl,
    List.all_eq_true.mpr (fun a ha => decide_eq_true (h2 a ha))⟩

/-- Character-list form of `vaultIDOfParts`, associated to the right. -/
theorem vaultIDOfParts_data (s g : String) (c : Char) (n : String) :
    (vaultIDOfParts s g c n).data =
      "/subscriptions/".data ++ (s.data ++ ("/resourceGroups/".data ++ (g.data ++
        ("/providers/Microsoft".data ++ (c :: ("KeyVault/vaults/".data ++ n.data)))))) := by
  unfold vaultIDOfParts
  simp only [String.data_append, List.append_assoc]
  rfl

/-- Completeness of `kvNameCapture`: every generalized-pattern vault ID is
captured, returning the embedded vault name. -/
theorem kvNameCapture_parts (s g : String) (c : Char) (n : String)
    (hs : segOKb s = true) (hg : segOKb g = true) (hn : segOKb n = true)
    (hc : c ≠ '\n') :
    kvNameCapture (vaultIDOfParts s g c n) = some n := by
  obtain ⟨hs1, hs2⟩ := segOKb_spec hs
  obtain ⟨hg1, hg2⟩ := segOKb_spec hg
  obtain ⟨hn1, hn2⟩ := segOKb_spec hn
  have e0 := vaultIDOfParts_data s g c n
  have e1 : (s.data ++ ("/resourceGroups/".data ++ (g.data ++
      ("/providers/Microsoft".data ++ (c :: ("KeyVault/vaults/".data ++ n.data)))))).takeWhile
      (fun c => c ≠ '/') = s.data :=
    takeWhile_seg _ _ hs2 rfl
  have e2 : (s.data ++ ("/resourceGroups/".data ++ (g.data ++
      ("/providers/Microsoft".data ++ (c :: ("KeyVault/vaults/".data ++ n.data)))))).dropWhile
      (fun c => c ≠ '/') =
      "/resourceGroups/".data ++ (g.data ++
        ("/providers/Microsoft".data ++ (c :: ("KeyVault/vaults/".data ++ n.data)))) :=
    dropWhile_seg _ _ hs2 rfl
  have e3 : s.data.isEmpty = false := isEmpty_false_of_ne_nil hs1
  have e4 : (g.data ++ ("/providers/Microsoft".data ++
      (c :: ("KeyVault/vaults/".data ++ n.data)))).takeWhile (fun c => c ≠ '/') = g.data :=
    takeWhile_seg _ _ hg2 rfl
  have e5 : (g.data ++ ("/providers/Microsoft".data ++
      (c :: ("KeyVault/vaults/".data ++ n.data)))).dropWhile (fun c => c ≠ '/') =
      "/providers/Microsoft".data ++ (c :: ("KeyVault/vaults/".data ++ n.data)) :=
    dropWhile_seg _ _ hg2 rfl
  have e6 : g.data.isEmpty = false := isEmpty_false_of_ne_nil hg1
  have hc' : (c = '\n') = False := eq_false hc
  have e7 : n.data.isEmpty = false := isEmpty_false_of_ne_nil hn1
  have e8 : n.data.any (fun a => a = '/') = false := any_slash_false _ hn2
  simp only [kvNameCapture, e0, dropPre_complete, e1, e2, e3, e4, e5, e6, e7, e8,
    Bool.false_eq_true, if_false, hc']

/-- Soundness of `kvNameCapture`: a successful capture decomposes the input
into the generalized pattern of `keyVaultIDRegex`, with the captured vault
name as the final segment. -/
theorem kvNameCapture_sound (x : String) (nm : String)
    (h : kvNameCapture x = some nm) :
    ∃ s g c, segOKb s = true ∧ segOKb g = true ∧ segOKb nm = true ∧ c ≠ '\n' ∧
      x = vaultIDOfParts s g c nm := by
  unfold kvNameCapture at h
  cases h1 : dropPre "/subscriptions/".data x.data with
  | none => rw [h1] at h; exact Option.noConfusion h
  | some r1 =>
    rw [h1] at h
    dsimp only at h
    by_cases he1 : (r1.takeWhile (fun c => c ≠ '/')).isEmpty
    · rw [if_pos he1] at h; exact Option.noConfusion h
    · rw [if_neg he1] at h
      cases h2 : dropPre "/resourceGroups/".data (r1.dropWhile (fun c => c ≠ '/')) with
      | none => rw [h2] at h; exact Option.noConfusion h
      | some r2 =>
        rw [h2] at h
        dsimp only at h
        by_cases he2 : (r2.takeWhile (fun c => c ≠ '/')).isEmpty
        · rw [if_pos he2] at h; exact Option.noConfusion h
        · rw [if_neg he2] at h
          cases h3 : dropPre "/providers/Microsoft".data (r2.dropWhile (fun c => c ≠ '/')) with
          | none => rw [h3] at h; exact Option.noConfusion h
          | some r3 =>
            rw [h3] at h
            cases r3 with
            | nil => exact Option.noConfusion h
            | cons c r4 =>
              dsimp only at h
              by_cases hcn : c = '\n'
              · rw [if_pos hcn] at h; exact Option.noConfusion h
              · rw [if_neg hcn] at h
                cases h4 : dropPre "KeyVault/vaults/".data r4 with
                | none => rw [h4] at h; exact Option.noConfusion h
                | some r5 =>
                  rw [h4] at h
                  dsimp only at h
                  by_cases he5 : r5.isEmpty
                  · rw [if_pos he5] at h; exact Option.noConfusion h
                  · rw [if_neg he5] at h
                    by_cases ha5 : r5.any (fun a => a = '/')
                    · rw [if_pos ha5] at h; exact Option.noConfusion h
                    · rw [if_neg ha5] at h
                      have hnm : nm = String.mk r5 := (Option.some.inj h).symm
                      have hx : x.data = "/subscriptions/".data ++ r1 :=
                        dropPre_sound _ _ _ h1
                      have hr1 : r1.takeWhile (fun c => c ≠ '/') ++
                          r1.dropWhile (fun c => c ≠ '/') = r1 :=
                        List.takeWhile_append_dropWhile _ _
                      have hr2 : r2.takeWhile (fun c => c ≠ '/') ++
                          r2.dropWhile (fun c => c ≠ '/') = r2 :=
                        List.takeWhile_append_dropWhile _ _
                      rw [← hr1] at hx
                      rw [dropPre_sound _ _ _ h2] at hx
                      rw [← hr2] at hx
                      rw [dropPre_sound _ _ _ h3] at hx
                      rw [dropPre_sound _ _ _ h4] at hx
                      have hne1 : r1.takeWhile (fun c => c ≠ '/') ≠ [] := by
                        intro hnil
                        rw [hnil] at he1
                        exact he1 rfl
                      have hne2 : r2.takeWhile (fun c => c ≠ '/') ≠ [] := by
                        intro hnil
                        rw [hnil] at he2
                        exact he2 rfl
                      have hm1 : ∀ a ∈ r1.takeWhile (fun c => c ≠ '/'), a ≠ '/' := by
                        intro a ha
                        have h' := List.mem_takeWhile_imp ha
                        exact of_decide_eq_true h'
                      have hm2 : ∀ a ∈ r2.takeWhile (fun c => c ≠ '/'), a ≠ '/' := by
                        intro a ha
                        have h' := List.mem_takeWhile_imp ha
                        exact of_decide_eq_true h'
                      have hne5 : r5 ≠ [] := by
                        intro hnil
                        rw [hnil] at he5
                        exact he5 rfl
                      have hm5 : ∀ a ∈ r5, a ≠ '/' := fun a ha hq =>
                        ha5 (List.any_eq_true.mpr ⟨a, ha, decide_eq_true hq⟩)
                      refine ⟨String.mk (r1.takeWhile (fun c => c ≠ '/')),
                        String.mk (r2.takeWhile (fun c => c ≠ '/')), c,
                        segOKb_of hne1 hm1, segOKb_of hne2 hm2, ?_, hcn, ?_⟩
                      · rw [hnm]
                        exact segOKb_of hne5 hm5
                      · have hd : (vaultIDOfParts (String.mk (r1.takeWhile (fun c => c ≠ '/')))
                            (String.mk (r2.takeWhile (fun c => c ≠ '/'))) c nm).data = x.data := by
                          rw [vaultIDOfParts_data, hx, hnm]
                        have h5 : String.mk x.data =
                            String.mk (vaultIDOfParts (String.mk (r1.takeWhile (fun c => c ≠ '/')))
                              (String.mk (r2.takeWhile (fun c => c ≠ '/'))) c nm).data :=
                          congrArg String.mk hd.symm
                        exact h5

/-- C6 (amended): `extractVaultName` succeeds exactly on the generalized
pattern of `keyVaultIDRegex` — the structural vault-ID pattern with the
unescaped dot of `Microsoft.KeyVault` matching any single non-newline
character — returning the embedded vault name; every string outside that
generalized pattern fails with the invalid-identifier error. -/
theorem c6_vault_name_extraction :
    (∀ s g c n, segOKb s = true → segOKb g = true → segOKb n = true → c ≠ '\n' →
      extractVaultName (vaultIDOfParts s g c n) = .ok n) ∧
    (∀ x, (¬ ∃ s g c n, segOKb s = true ∧ segOKb g = true ∧ segOKb n = true ∧
        c ≠ '\n' ∧ x = vaultIDOfParts s g c n) →
      ∃ e, extractVaultName x = .error e) := by
  constructor
  · intro s g c n hs hg hn hc
    unfold extractVaultName
    rw [kvNameCapture_parts s g c n hs hg hn hc]
  · intro x hnot
    cases hcap : kvNameCapture x with
    | none =>
      refine ⟨"invalid key vault ID: \"" ++ x ++
        "\" doesn't match the key vault ID pattern", ?_⟩
      unfold extractVaultName
      rw [hcap]
    | some nm =>
      obtain ⟨s, g, c, hs, hg, hn, hc, hx⟩ := kvNameCapture_sound x nm hcap
      exact absurd ⟨s, g, c, nm, hs, hg, hn, hc, hx⟩ hnot

/-- C6 counterexample: `c6Bad` replaces the dot of `Microsoft.KeyVault`
with `X`, so it does not match the structural pattern of the claim, yet
`extractVaultName` succeeds on it (the unescaped regex dot matches `X`) —
refuting "every string not matching that structural pattern fails". -/
theorem c6_counterexample :
    extractVaultName c6Bad = Except.ok "n" ∧ ¬ literalVaultShape c6Bad := by
  refine ⟨by decide, ?_⟩
  rintro ⟨s, g, n, -, -, -, hx⟩
  have hdata := congrArg String.data hx
  rw [vaultIDOfParts_data] at hdata
  have hdot : '.' ∈ c6Bad.data := by
    rw [hdata]
    simp
  exact absurd hdot (by decide)

/-- Witness for C6: the structural pattern itself (with its literal dot)
is accepted with the embedded name returned, and a string outside the
generalized pattern is rejected. -/
theorem c6_witness :
    extractVaultName (vaultIDOfParts "a" "b" '.' "kv") = Except.ok "kv" ∧
    (∃ e, extractVaultName "x" = Except.error e) := by
  constructor
  · exact c6_vault_name_extraction.1 "a" "b" '.' "kv" (by decide) (by decide)
      (by decide) (by decide)
  · apply c6_vault_name_extraction.2
    rintro ⟨s, g, c, n, -, -, -, -, hx⟩
    have hdata := congrArg String.data hx
    rw [vaultIDOfParts_data] at hdata
    have hhead := congrArg List.head? hdata
    rw [show "x".data.head? = some 'x' from rfl] at hhead
    rw [show ("/subscriptions/".data ++ (s.data ++ ("/resourceGroups/".data ++ (g.data ++
      ("/providers/Microsoft".data ++ (c :: ("KeyVault/vaults/".data ++ n.data))))))).head? =
      some '/' from rfl] at hhead
    exact absurd (Option.some.inj hhead) (by decide)

/-- `takeWhile (· ≠ '/')` passes over a slash-free block. -/
theorem takeWhile_append_all : ∀ (u w : List Char), (∀ a ∈ u, a ≠ '/') →
    (u ++ w).takeWhile (fun c => c ≠ '/') = u ++ w.takeWhile (fun c => c ≠ '/')
  | [], _, _ => rfl
  | a :: u, w, hu => by
    have ha : (fun c => decide (c ≠ '/')) a = true :=
      decide_eq_true (hu a (List.mem_cons_self a u))
    rw [List.cons_append, List.takeWhile_cons, if_pos ha,
      takeWhile_append_all u w (fun b hb => hu b (List.mem_cons_of_mem a hb)),
      List.cons_append]

/-- A prefix of the leading slash-free run is slash-free. -/
theorem take_of_le_takeWhile (l : List Char) (j : Nat)
    (h : j ≤ (l.takeWhile (fun c => c ≠ '/')).length) :
    ∀ a ∈ l.take j, a ≠ '/' := by
  obtain ⟨t, ht⟩ := List.takeWhile_prefix (l := l) (fun c => c ≠ '/')
  intro a ha
  rw [← ht, List.take_append_of_le_length h] at ha
  have h2 := List.mem_takeWhile_imp (List.take_subset j _ ha)
  exact of_decide_eq_true h2

/-- Soundness of `matchHostTail`: a successful match decomposes the input
into the host-tail pattern with two arbitrary non-newline characters. -/
theorem matchHostTail_sound (ds rest : List Char)
    (h : matchHostTail ds = some rest) :
    ∃ c1 c2, c1 ≠ '\n' ∧ c2 ≠ '\n' ∧
      ds = ".vault".data ++ (c1 :: ("azure".data ++ (c2 :: ("net/secrets/".data ++ rest)))) := by
  unfold matchHostTail at h
  cases h1 : dropPre ".vault".data ds with
  | none => rw [h1] at h; exact Option.noConfusion h
  | some r1 =>
    rw [h1] at h
    cases r1 with
    | nil => exact Option.noConfusion h
    | cons c1 r2 =>
      dsimp only at h
      by_cases hc1 : c1 = '\n'
      · rw [if_pos hc1] at h; exact Option.noConfusion h
      · rw [if_neg hc1] at h
        cases h2 : dropPre "azure".data r2 with
        | none => rw [h2] at h; exact Option.noConfusion h
        | some r3 =>
          rw [h2] at h
          cases r3 with
          | nil => exact Option.noConfusion h
          | cons c2 r4 =>
            dsimp only at h
            by_cases hc2 : c2 = '\n'
            · rw [if_pos hc2] at h; exact Option.noConfusion h
            · rw [if_neg hc2] at h
              refine ⟨c1, c2, hc1, hc2, ?_⟩
              rw [dropPre_sound _ _ _ h1, dropPre_sound _ _ _ h2,
                dropPre_sound _ _ _ h]

/-- Completeness of `matchHostTail` on the host-tail pattern. -/
theorem matchHostTail_complete (c1 c2 : Char) (rest : List Char)
    (hc1 : c1 ≠ '\n') (hc2 : c2 ≠ '\n') :
    matchHostTail (".vault".data ++ (c1 :: ("azure".data ++
      (c2 :: ("net/secrets/".data ++ rest))))) = some rest := by
  have h1 : (c1 = '\n') = False := eq_false hc1
  have h2 : (c2 = '\n') = False := eq_false hc2
  simp only [matchHostTail, dropPre_complete, h1, h2, if_false]

/-- Soundness of the greedy capture search. -/
theorem tryCapture_sound : ∀ (k : Nat) (cs cap nmm : List Char),
    tryCapture cs k = some (cap, nmm) →
    ∃ j, 1 ≤ j ∧ j ≤ k ∧ cap = cs.take j ∧
      ∃ rest, matchHostTail (cs.drop j) = some rest ∧
        nmm = rest.takeWhile (fun c => c ≠ '/') ∧ nmm.isEmpty = false
  | 0, cs, cap, nmm, h => Option.noConfusion h
  | Nat.succ k, cs, cap, nmm, h => by
    unfold tryCapture at h
    cases hmt : matchHostTail (cs.drop (Nat.succ k)) with
    | none =>
      rw [hmt] at h
      obtain ⟨j, hj1, hjk, hrest⟩ := tryCapture_sound k cs cap nmm h
      exact ⟨j, hj1, Nat.le_succ_of_le hjk, hrest⟩
    | some rest =>
      rw [hmt] at h
      dsimp only at h
      by_cases hne : (rest.takeWhile (fun c => c ≠ '/')).isEmpty
      · rw [if_pos hne] at h
        obtain ⟨j, hj1, hjk, hrest⟩ := tryCapture_sound k cs cap nmm h
        exact ⟨j, hj1, Nat.le_succ_of_le hjk, hrest⟩
      · rw [if_neg hne] at h
        obtain ⟨hcap, hnm⟩ := Prod.mk.injEq .. ▸ Option.some.inj h
        exact ⟨Nat.succ k, Nat.succ_le_succ (Nat.zero_le k), Nat.le_refl _, hcap.symm,
          rest, hmt, hnm.symm, by rw [← hnm]; exact Bool.eq_false_iff.mpr hne⟩

/-- Completeness of the greedy capture search: if any candidate capture
length up to the bound admits a host-tail match with a nonempty name, the
search succeeds. -/
theorem tryCapture_complete : ∀ (k : Nat) (cs : List Char),
    (∃ j, 1 ≤ j ∧ j ≤ k ∧ ∃ rest, matchHostTail (cs.drop j) = some rest ∧
      (rest.takeWhile (fun c => c ≠ '/')).isEmpty = false) →
    ∃ pr, tryCapture cs k = some pr
  | 0, cs, ⟨j, hj1, hjk, _⟩ => absurd (Nat.le_trans hj1 hjk) (by omega)
  | Nat.succ k, cs, ⟨j, hj1, hjk, rest, hmt, hne⟩ => by
    cases hmt' : matchHostTail (cs.drop (Nat.succ k)) with
    | some rest' =>
      by_cases hne' : (rest'.takeWhile (fun c => c ≠ '/')).isEmpty
      · have hjne : j ≠ Nat.succ k := by
          intro hje
          rw [hje, hmt'] at hmt
          rw [← Option.some.inj hmt] at hne
          rw [hne'] at hne
          exact Bool.noConfusion hne
        refine tryCapture_complete k cs ⟨j, hj1, ?_, rest, hmt, hne⟩ |>.imp ?_
        · exact Nat.lt_succ_iff.mp (Nat.lt_of_le_of_ne hjk hjne)
        · intro pr hpr
          unfold tryCapture
          rw [hmt']
          dsimp only
          rw [if_pos hne']
          exact hpr
      · refine ⟨(cs.take (Nat.succ k), rest'.takeWhile (fun c => c ≠ '/')), ?_⟩
        unfold tryCapture
        rw [hmt']
        dsimp only
        rw [if_neg hne']
    | none =>
      have hjne : j ≠ Nat.succ k := by
        intro hje
        rw [hje, hmt'] at hmt
        exact Option.noConfusion hmt
      refine tryCapture_complete k cs ⟨j, hj1, ?_, rest, hmt, hne⟩ |>.imp ?_
      · exact Nat.lt_succ_iff.mp (Nat.lt_of_le_of_ne hjk hjne)
      · intro pr hpr
        unfold tryCapture
        rw [hmt']
        exact hpr

/-- Character-list form of `legacyIDOfParts`, associated to the right. -/
theorem legacyIDOfParts_data (v : String) (c1 c2 : Char) (n rest : String) :
    (legacyIDOfParts v c1 c2 n rest).data =
      "https://".data ++ (v.data ++ (".vault".data ++ (c1 :: ("azure".data ++
        (c2 :: ("net/secrets/".data ++ (n.data ++ rest.data))))))) := by
  unfold legacyIDOfParts
  simp only [String.data_append, List.append_assoc]
  rfl

/-- Soundness of `extractVaultNameAndName`: a successful extraction
decomposes the input into the generalized prefix pattern of `idRegex`,
with the returned vault/secret names embedded at their positions. -/
theorem extractVaultNameAndName_sound (x v n : String)
    (h : extractVaultNameAndName x = .ok (v, n)) :
    ∃ c1 c2 rest, segOKb v = true ∧ segOKb n = true ∧ c1 ≠ '\n' ∧ c2 ≠ '\n' ∧
      x = legacyIDOfParts v c1 c2 n rest := by
  unfold extractVaultNameAndName at h
  cases h0 : dropPre "https://".data x.data with
  | none => rw [h0] at h; exact Except.noConfusion h
  | some cs =>
    rw [h0] at h
    dsimp only at h
    cases h1 : tryCapture cs (cs.takeWhile (fun c => c ≠ '/')).length with
    | none => rw [h1] at h; exact Except.noConfusion h
    | some pr =>
      obtain ⟨cap, nmm⟩ := pr
      rw [h1] at h
      dsimp only at h
      obtain ⟨hv, hn⟩ := Prod.mk.injEq .. ▸ Except.ok.inj h
      obtain ⟨j, hj1, hjK, hcap, rest', hmt, hnm, hnmne⟩ :=
        tryCapture_sound _ cs cap nmm h1
      obtain ⟨c1, c2, hc1, hc2, hds⟩ := matchHostTail_sound _ _ hmt
      have hcapslash : ∀ a ∈ cap, a ≠ '/' := by
        rw [hcap]
        exact take_of_le_takeWhile cs j hjK
      have hcaplen : cap.length = j := by
        rw [hcap, List.length_take]
        have hK : (cs.takeWhile (fun c => c ≠ '/')).length ≤ cs.length :=
          (List.takeWhile_prefix _).length_le
        exact Nat.min_eq_left (Nat.le_trans hjK hK)
      have hcapne : cap ≠ [] := by
        intro hnil
        rw [hnil] at hcaplen
        simp only [List.length_nil] at hcaplen
        omega
      have hnmslash : ∀ a ∈ nmm, a ≠ '/' := by
        rw [hnm]
        intro a ha
        have h' := List.mem_takeWhile_imp ha
        exact of_decide_eq_true h'
      have hnmne2 : nmm ≠ [] := by
        intro hnil
        rw [hnil] at hnmne
        exact Bool.noConfusion hnmne
      refine ⟨c1, c2, String.mk (rest'.dropWhile (fun c => c ≠ '/')), ?_, ?_, hc1, hc2, ?_⟩
      · rw [← hv]
        exact segOKb_of hcapne hcapslash
      · rw [← hn]
        exact segOKb_of hnmne2 hnmslash
      · have hxd : x.data = "https://".data ++ cs := dropPre_sound _ _ _ h0
        have hcs : cs = cap ++ cs.drop j := by
          rw [hcap]
          exact (List.take_append_drop j cs).symm
        have hrest : rest' = nmm ++ rest'.dropWhile (fun c => c ≠ '/') := by
          rw [hnm]
          exact (List.takeWhile_append_dropWhile _ _).symm
        have hd2 : (legacyIDOfParts v c1 c2 n
            (String.mk (rest'.dropWhile (fun c => c ≠ '/')))).data = x.data := by
          rw [legacyIDOfParts_data, hxd, hcs, hds, ← hv, ← hn]
          conv_rhs => rw [hrest]
        have h5 : String.mk x.data = String.mk (legacyIDOfParts v c1 c2 n
            (String.mk (rest'.dropWhile (fun c => c ≠ '/')))).data :=
          congrArg String.mk hd2.symm
        exact h5

/-- Completeness of `extractVaultNameAndName`: every string beginning with
the generalized prefix pattern of `idRegex` is accepted (whatever follows
the secret name). -/
theorem extractVaultNameAndName_complete (v : String) (c1 c2 : Char) (n rest : String)
    (hv : segOKb v = true) (hn : segOKb n = true) (hc1 : c1 ≠ '\n') (hc2 : c2 ≠ '\n') :
    ∃ p, extractVaultNameAndName (legacyIDOfParts v c1 c2 n rest) = .ok p := by
  obtain ⟨hv1, hv2⟩ := segOKb_spec hv
  obtain ⟨hn1, hn2⟩ := segOKb_spec hn
  have hK : v.data.length ≤ ((v.data ++ (".vault".data ++ (c1 :: ("azure".data ++
      (c2 :: ("net/secrets/".data ++ (n.data ++ rest.data))))))).takeWhile
        (fun c => c ≠ '/')).length := by
    rw [takeWhile_append_all _ _ hv2, List.length_append]
    omega
  have hdrop : (v.data ++ (".vault".data ++ (c1 :: ("azure".data ++
      (c2 :: ("net/secrets/".data ++ (n.data ++ rest.data))))))).drop v.data.length =
      ".vault".data ++ (c1 :: ("azure".data ++
        (c2 :: ("net/secrets/".data ++ (n.data ++ rest.data))))) :=
    List.drop_left _ _
  have hmt : matchHostTail (".vault".data ++ (c1 :: ("azure".data ++
      (c2 :: ("net/secrets/".data ++ (n.data ++ rest.data)))))) =
      some (n.data ++ rest.data) :=
    matchHostTail_complete c1 c2 _ hc1 hc2
  have hnmne : ((n.data ++ rest.data).takeWhile (fun c => c ≠ '/')).isEmpty = false := by
    cases hcase : n.data with
    | nil => exact absurd hcase hn1
    | cons a t =>
      have ha : (fun c => decide (c ≠ '/')) a = true :=
        decide_eq_true (hn2 a (by rw [hcase]; exact List.mem_cons_self a t))
      rw [List.cons_append, List.takeWhile_cons, if_pos ha]
      rfl
  have hj1 : 1 ≤ v.data.length := List.length_pos.mpr hv1
  obtain ⟨pr, hpr⟩ := tryCapture_complete
    ((v.data ++ (".vault".data ++ (c1 :: ("azure".data ++
      (c2 :: ("net/secrets/".data ++ (n.data ++ rest.data))))))).takeWhile
        (fun c => c ≠ '/')).length
    (v.data ++ (".vault".data ++ (c1 :: ("azure".data ++
      (c2 :: ("net/secrets/".data ++ (n.data ++ rest.data)))))))
    ⟨v.data.length, hj1, hK, n.data ++ rest.data, by rw [hdrop]; exact hmt, hnmne⟩
  obtain ⟨cap, nmm⟩ := pr
  refine ⟨(String.mk cap, String.mk nmm), ?_⟩
  unfold extractVaultNameAndName
  rw [legacyIDOfParts_data, dropPre_complete]
  dsimp only
  rw [hpr]

/-- C10 (amended): `extractVaultNameAndName` fails with the invalid-ID
error exactly for inputs that do not begin with the generalized prefix
`https://{vault}.vault<c1>azure<c2>net/secrets/{name}` of `idRegex` (the
two inner dots are unescaped and match any non-newline character, and
everything after the secret name is ignored); every successful extraction
returns names embedded at the pattern's vault/secret positions. -/
theorem c10_legacy_id_extraction :
    (∀ x v n, extractVaultNameAndName x = .ok (v, n) →
      ∃ c1 c2 rest, segOKb v = true ∧ segOKb n = true ∧ c1 ≠ '\n' ∧ c2 ≠ '\n' ∧
        x = legacyIDOfParts v c1 c2 n rest) ∧
    (∀ v c1 c2 n rest, segOKb v = true → segOKb n = true → c1 ≠ '\n' → c2 ≠ '\n' →
      ∃ p, extractVaultNameAndName (legacyIDOfParts v c1 c2 n rest) = .ok p) ∧
    (∀ x, (¬ ∃ v c1 c2 n rest, segOKb v = true ∧ segOKb n = true ∧ c1 ≠ '\n' ∧
        c2 ≠ '\n' ∧ x = legacyIDOfParts v c1 c2 n rest) →
      ∃ e, extractVaultNameAndName x = .error e) := by
  refine ⟨extractVaultNameAndName_sound, extractVaultNameAndName_complete, ?_⟩
  intro x hnot
  cases hres : extractVaultNameAndName x with
  | error e => exact ⟨e, rfl⟩
  | ok p =>
    obtain ⟨v, n⟩ := p
    obtain ⟨c1, c2, rest, hv, hn, hc1, hc2, hx⟩ :=
      extractVaultNameAndName_sound x v n hres
    exact absurd ⟨v, c1, c2, n, rest, hv, hn, hc1, hc2, hx⟩ hnot

/-- C10 counterexample: `c10Bad` replaces the two unescaped dots of
`vault.azure.net` with `x` / `y`, so it does not begin with the literal
prefix `https://{vault}.vault.azure.net/secrets/{name}` of the claim, yet
`extractVaultNameAndName` succeeds on it — refuting the claimed
"fails if and only if the input does not begin with that prefix". -/
theorem c10_counterexample :
    extractVaultNameAndName c10Bad = Except.ok ("v", "n") ∧
    ¬ literalLegacyShape c10Bad := by
  refine ⟨by decide, ?_⟩
  rintro ⟨v, n, rest, -, -, hx⟩
  have hd := congrArg String.data hx
  simp only [String.data_append] at hd
  have hcnt := congrArg (List.count '.') hd
  simp only [List.count_append] at hcnt
  have h1 : List.count '.' c10Bad.data = 1 := by decide
  have h2 : List.count '.' "https://".data = 0 := by decide
  have h3 : List.count '.' ".vault.azure.net/secrets/".data = 3 := by decide
  rw [h1, h2, h3] at hcnt
  omega

/-- Witness for C10: the literal-dot prefix is accepted (with trailing
version text ignored), the concrete near-miss `c10Bad` embeds into the
generalized pattern, and a string outside the pattern is rejected. -/
theorem c10_witness :
    (∃ p, extractVaultNameAndName (legacyIDOfParts "myvault" '.' '.' "s1" "/abcd") = .ok p) ∧
    (∃ c1 c2 rest, segOKb "v" = true ∧ segOKb "n" = true ∧ c1 ≠ '\n' ∧ c2 ≠ '\n' ∧
      c10Bad = legacyIDOfParts "v" c1 c2 "n" rest) ∧
    (∃ e, extractVaultNameAndName "x" = Except.error e) := by
  refine ⟨?_, ?_, ?_⟩
  · exact c10_legacy_id_extraction.2.1 "myvault" '.' '.' "s1" "/abcd"
      (by decide) (by decide) (by decide) (by decide)
  · exact c10_legacy_id_extraction.1 c10Bad "v" "n" (by decide)
  · apply c10_legacy_id_extraction.2.2
    rintro ⟨v, c1, c2, n, rest, -, -, -, -, hx⟩
    have hd := congrArg String.data hx
    rw [legacyIDOfParts_data] at hd
    have hhead := congrArg List.head? hd
    rw [show "x".data.head? = some 'x' from rfl] at hhead
    rw [show ("https://".data ++ (v.data ++ (".vault".data ++ (c1 :: ("azure".data ++
      (c2 :: ("net/secrets/".data ++ (n.data ++ rest.data)))))))).head? =
      some 'h' from rfl] at hhead
    exact absurd (Option.some.inj hhead) (by decide)
